import Mathlib

/-!
# Verification of the ChatBot knowledge-base chunking, caching and retrieval engine

Shallow embedding of the knowledge-base engine of this repository:

* the chunker `chunk_text` of `scripts/chunk_sql_kb.py`;
* the cached search `_search_kb_cache`, the direct-store fallback search
  `_search_kb_database`, the cache loader `_load_kb_cache` and the dispatcher
  `search_kb` of `actions/conversation_db.py`.

Python strings are modelled as `List Char`; the Python operations used by the
code (`lower`, `strip`, `split`, `rfind`, slicing, substring tests, `isalnum`)
are modelled below.  The chunker's `while` loop is embedded with explicit fuel:
`none` means the loop did not finish within the given fuel.
-/

set_option autoImplicit false

namespace ChatBotKB

/-! ## Python string primitives -/

/-- Python whitespace characters relevant to `str.strip` / `str.split`. -/
def isPySpace (c : Char) : Bool :=
  c = ' ' || c = '\t' || c = '\n' || c = '\r' || c = '\x0b' || c = '\x0c'

/-- Python `str.lower()`. -/
def pyLower (s : List Char) : List Char := s.map Char.toLower

/-- Python `str.strip()`: remove leading and trailing whitespace.
    (Trailing side first; the two sides commute.) -/
def pyStrip (s : List Char) : List Char :=
  ((s.reverse.dropWhile isPySpace).reverse).dropWhile isPySpace

/-- Helper for `pySplit`: `w` accumulates the current word reversed. -/
def pySplitAux : List Char → List Char → List (List Char)
  | [], w => if w.isEmpty then [] else [w.reverse]
  | c :: s, w =>
    if isPySpace c then
      if w.isEmpty then pySplitAux s [] else w.reverse :: pySplitAux s []
    else pySplitAux s (c :: w)

/-- Python `str.split()` with no argument: split on runs of whitespace,
    discarding empty fields. -/
def pySplit (s : List Char) : List (List Char) := pySplitAux s []

/-- Python slice `t[s:e]` (for non-negative bounds; out-of-range indices clamp). -/
def pySlice (t : List Char) (s e : Nat) : List Char := (t.drop s).take (e - s)

/-- Python `t.rfind(c, s, e)`: the largest index `i` with `s ≤ i < min e (len t)`
    and `t[i] = c`, as an `Option` (`none` models Python's `-1`). -/
def pyRfind (t : List Char) (c : Char) (s e : Nat) : Option Nat :=
  ((List.range (min e t.length)).filter
    (fun i => decide (s ≤ i) && decide (t.get? i = some c))).getLast?

/-- Python `w.isalnum()`: non-empty and all characters alphanumeric. -/
def pyIsAlnum (w : List Char) : Bool := !w.isEmpty && w.all Char.isAlphanum

/-- Does `needle` occur at the head of `haystack`? (helper for `pyIn`). -/
def leadsWith : List Char → List Char → Bool
  | [], _ => true
  | _ :: _, [] => false
  | c :: n, d :: h => c == d && leadsWith n h

/-- Python substring test `needle in haystack`. -/
def pyIn (needle : List Char) : List Char → Bool
  | [] => needle.isEmpty
  | c :: h => leadsWith needle (c :: h) || pyIn needle h

/-! ## The chunker (`chunk_text` in `scripts/chunk_sql_kb.py`)

```python
def chunk_text(text, chunk_size=600, overlap=100):
   if not text:
       return []
   chunks = []
   start = 0
   while start < len(text):
       end = start + chunk_size
       if end < len(text):
           last_newline = text.rfind('\n', start, end)
           if last_newline != -1 and last_newline > start + chunk_size // 2:
               end = last_newline + 1
           else:
               last_space = text.rfind(' ', start, end)
               if last_space != -1 and last_space > start + chunk_size // 2:
                   end = last_space + 1
       chunk = text[start:end].strip()
       if chunk:
           chunks.append(chunk)
       start = end - overlap
       if start < 0: start = 0
   return chunks
```
-/

/-- One iteration's `end` value, computed from `start` (the cut logic of the
    loop body).  `Nat` subtraction at the call sites models the
    `if start < 0: start = 0` clamp. -/
def chunkEnd (text : List Char) (size start : Nat) : Nat :=
  let e0 := start + size
  if e0 < text.length then
    match pyRfind text '\n' start e0 with
    | some p =>
      if start + size / 2 < p then p + 1
      else
        match pyRfind text ' ' start e0 with
        | some q => if start + size / 2 < q then q + 1 else e0
        | none => e0
    | none =>
      match pyRfind text ' ' start e0 with
      | some q => if start + size / 2 < q then q + 1 else e0
      | none => e0
  else e0

/-- The loop's `start` update: `start = end - overlap`, clamped at `0`
    (`Nat` truncated subtraction). -/
def nextStart (text : List Char) (size overlap start : Nat) : Nat :=
  chunkEnd text size start - overlap

/-- The `while` loop of `chunk_text`, with fuel.  `none`: the loop did not
    exit within `fuel` iterations. -/
def chunkTextAux (text : List Char) (size overlap : Nat) :
    Nat → Nat → List (List Char) → Option (List (List Char))
  | 0, start, chunks => if start < text.length then none else some chunks
  | fuel + 1, start, chunks =>
    if start < text.length then
      let chunk := pyStrip (pySlice text start (chunkEnd text size start))
      chunkTextAux text size overlap fuel (nextStart text size overlap start)
        (if chunk.isEmpty then chunks else chunks ++ [chunk])
    else some chunks

/-- `chunk_text(text, chunk_size, overlap)` with fuel. -/
def chunkText (fuel : Nat) (text : List Char) (size overlap : Nat) :
    Option (List (List Char)) :=
  if text.isEmpty then some [] else chunkTextAux text size overlap fuel 0 []

/-- Instrumented view of the same loop: the sequence of `start` positions the
    loop visits (same control flow as `chunkTextAux`). -/
def chunkStarts (text : List Char) (size overlap : Nat) : Nat → Nat → Option (List Nat)
  | 0, start => if start < text.length then none else some []
  | fuel + 1, start =>
    if start < text.length then
      (chunkStarts text size overlap fuel (nextStart text size overlap start)).map
        (start :: ·)
    else some []

/-- The non-overlap spans determined by a list of start positions: each start
    owns the text up to the next start, the last one up to the end of the text. -/
def spanConcat (text : List Char) : List Nat → List Char
  | [] => []
  | [s] => pySlice text s text.length
  | s :: s' :: rest => pySlice text s s' ++ spanConcat text (s' :: rest)

/-! ## Data model of the in-memory knowledge-base cache

`_load_kb_cache` groups the store's rows into article dicts
`{id, title, url, chunks}`, each chunk being `{content, chunk_index}`,
ordered by article id then `chunk_index`. -/

structure Chunk where
  content : List Char
  chunk_index : Nat
deriving DecidableEq

structure Article where
  id : Nat
  title : List Char
  url : List Char
  chunks : List Chunk
deriving DecidableEq

/-- A row of the result lists built by `_search_kb_cache` / `_search_kb_database`:
    `{article_id, title, content, url}`. -/
structure SearchResult where
  article_id : Nat
  title : List Char
  content : List Char
  url : List Char
deriving DecidableEq

/-! ## The search engine (`_search_kb_cache` in `actions/conversation_db.py`) -/

/-- The stop-word set of `_search_kb_cache` / `_search_kb_database`. -/
def stopWords : List (List Char) :=
  ["how".data, "to".data, "do".data, "i".data, "the".data, "a".data, "an".data,
   "in".data, "on".data, "at".data, "for".data, "of".data,
   "is".data, "are".data, "can".data, "you".data, "help".data, "me".data,
   "with".data, "about".data, "tell".data, "show".data,
   "find".data, "search".data, "get".data, "what".data, "where".data,
   "when".data, "why".data, "which".data, "my".data,
   "please".data, "need".data, "want".data, "would".data, "could".data,
   "should".data, "have".data, "has".data, "had".data]

/-- `words = [w for w in query_lower.split() if w.isalnum() and len(w) > 2
    and w not in stop_words]`. -/
def queryWords (queryLower : List Char) : List (List Char) :=
  (pySplit queryLower).filter
    (fun w => pyIsAlnum w && decide (2 < w.length) && !(stopWords.contains w))

/-- `max(article['chunks'], key=lambda c: len(c['content']))` when the list is
    non-empty (Python's `max` keeps the first of equally long chunks). -/
def longestChunk : List Chunk → Option Chunk
  | [] => none
  | c :: cs =>
    some (cs.foldl (fun best x =>
      if best.content.length < x.content.length then x else best) c)

/-- The result dict built from an article and one of its chunks. -/
def mkResult (a : Article) (c : Chunk) : SearchResult :=
  ⟨a.id, a.title, c.content, a.url⟩

/-- The no-keywords fallback: first article whose lowercased title contains the
    normalized query as a substring and that has a chunk; return its longest
    chunk.  (When `best_chunk` is `None` the Python loop moves on.) -/
def phrasePass (queryLower : List Char) : List Article → List SearchResult
  | [] => []
  | a :: rest =>
    if pyIn queryLower (pyLower a.title) then
      match longestChunk a.chunks with
      | some c => [mkResult a c]
      | none => phrasePass queryLower rest
    else phrasePass queryLower rest

/-- STEP 1: first article whose lowercased title contains the main keyword. -/
def mainKeywordPass (mainKeyword : List Char) : List Article → List SearchResult
  | [] => []
  | a :: rest =>
    if pyIn mainKeyword (pyLower a.title) then
      match longestChunk a.chunks with
      | some c => [mkResult a c]
      | none => mainKeywordPass mainKeyword rest
    else mainKeywordPass mainKeyword rest

/-- STEP 2: first article whose lowercased title contains every keyword. -/
def allKeywordsPass (words : List (List Char)) : List Article → List SearchResult
  | [] => []
  | a :: rest =>
    if words.all (fun w => pyIn w (pyLower a.title)) then
      match longestChunk a.chunks with
      | some c => [mkResult a c]
      | none => allKeywordsPass words rest
    else allKeywordsPass words rest

/-- `title_match_count = sum(1 for w in words if w in title_lower)` —
    counted per occurrence in `words`, which may contain duplicates. -/
def titleMatchCount (words : List (List Char)) (titleLower : List Char) : Nat :=
  (words.filter (fun w => pyIn w titleLower)).length

/-- `content_match_count = sum(1 for w in words if w in content_lower)`. -/
def contentMatchCount (words : List (List Char)) (contentLower : List Char) : Nat :=
  (words.filter (fun w => pyIn w contentLower)).length

/-- `score = title_match_count*1000 + content_match_count*100 + len(content)`,
    plus `10000` when the title contains the main keyword. -/
def chunkScore (words : List (List Char)) (mainKeyword : List Char)
    (a : Article) (c : Chunk) : Nat :=
  titleMatchCount words (pyLower a.title) * 1000
    + contentMatchCount words (pyLower c.content) * 100
    + c.content.length
    + (if pyIn mainKeyword (pyLower a.title) then 10000 else 0)

/-- `content_match_count > 0 or title_match_count > 0`. -/
def isCandidate (words : List (List Char)) (a : Article) (c : Chunk) : Bool :=
  decide (0 < contentMatchCount words (pyLower c.content))
    || decide (0 < titleMatchCount words (pyLower a.title))

/-- STEP 3 accumulator loop: `best_match` starts as `None`, `best_score` as
    `-1`, replaced on a strictly greater score. -/
def scoredFold (words : List (List Char)) (mainKeyword : List Char)
    (articles : List Article) : Option SearchResult × Int :=
  articles.foldl (fun best a =>
    a.chunks.foldl (fun best c =>
      if isCandidate words a c then
        if best.2 < (chunkScore words mainKeyword a c : Int) then
          (some (mkResult a c), (chunkScore words mainKeyword a c : Int))
        else best
      else best) best) (none, -1)

/-- STEP 3 result: `[best_match] if best_match else []`. -/
def scoredContentPass (words : List (List Char)) (mainKeyword : List Char)
    (articles : List Article) : List SearchResult :=
  match (scoredFold words mainKeyword articles).1 with
  | some r => [r]
  | none => []

/-- `_search_kb_cache(query)` over the cached article list. -/
def searchKBCache (articles : List Article) (query : List Char) :
    List SearchResult :=
  let queryLower := pyStrip (pyLower query)
  let words := queryWords queryLower
  if words.isEmpty then phrasePass queryLower articles
  else
    let mainKeyword := words.getLastD []
    let r1 := mainKeywordPass mainKeyword articles
    if !r1.isEmpty then r1
    else
      let r2 := if 1 < words.length then allKeywordsPass words articles else []
      if !r2.isEmpty then r2
      else scoredContentPass words mainKeyword articles

/-! ## The direct-store fallback (`_search_kb_database`)

The durable store is modelled as the same article list (the claim premise is
an identical corpus, ordered by article id then `chunk_index`).  Each SQL
query joins `knowledge_base_chunks` with `knowledge_base`, i.e. ranges over
(article, chunk) rows; `LOWER(x) LIKE '%kw%'` is a substring test; `TOP 1`
with `ORDER BY` keys is modelled as the first row under a stable descending
sort, i.e. the first row attaining the best key; `TOP 1` with no `ORDER BY`
(the no-keywords query) is modelled as the first row in base order. -/

/-- The joined (article, chunk) rows in store order. -/
def dbRows (articles : List Article) : List (Article × Chunk) :=
  articles.flatMap (fun a => a.chunks.map (fun c => (a, c)))

/-- `TOP 1 ... ORDER BY LEN(c.content) DESC`: first row with maximal content
    length. -/
def topByLen (rows : List (Article × Chunk)) : Option (Article × Chunk) :=
  rows.foldl (fun best r =>
    match best with
    | none => some r
    | some b => if b.2.content.length < r.2.content.length then some r else some b)
    none

/-- Strict "comes before" for `ORDER BY CASE WHEN LOWER(k.title) LIKE '%main%'
    THEN 0 ELSE 1 END, LEN(c.content) DESC`. -/
def dbStep3Better (mainKeyword : List Char) (b r : Article × Chunk) : Bool :=
  let bt := pyIn mainKeyword (pyLower b.1.title)
  let rt := pyIn mainKeyword (pyLower r.1.title)
  (rt && !bt) || ((rt == bt) && b.2.content.length < r.2.content.length)

/-- `TOP 1` under the STEP-3 ordering: first row with the best key. -/
def topByCaseLen (mainKeyword : List Char) (rows : List (Article × Chunk)) :
    Option (Article × Chunk) :=
  rows.foldl (fun best r =>
    match best with
    | none => some r
    | some b => if dbStep3Better mainKeyword b r then some r else some b) none

/-- `_search_kb_database(query)` against the store holding `articles`. -/
def searchKBDatabase (articles : List Article) (query : List Char) :
    List SearchResult :=
  let rows := dbRows articles
  let queryLower := pyStrip (pyLower query)
  let words := queryWords queryLower
  if words.isEmpty then
    match (rows.filter (fun r => pyIn queryLower (pyLower r.1.title))).head? with
    | some r => [mkResult r.1 r.2]
    | none => []
  else
    let mainKeyword := words.getLastD []
    match topByLen (rows.filter (fun r => pyIn mainKeyword (pyLower r.1.title))) with
    | some r => [mkResult r.1 r.2]
    | none =>
      match (if 1 < words.length then
          topByLen (rows.filter (fun r =>
            words.all (fun w => pyIn w (pyLower r.1.title))))
        else none) with
      | some r => [mkResult r.1 r.2]
      | none =>
        match topByCaseLen mainKeyword (rows.filter (fun r =>
            words.any (fun w =>
              pyIn w (pyLower r.2.content) || pyIn w (pyLower r.1.title)))) with
        | some r => [mkResult r.1 r.2]
        | none => []

/-! ## The cache handle (`_kb_cache`, `_load_kb_cache`, `search_kb`) -/

/-- The process-wide `_kb_cache` dict: `{articles, loaded_at, enabled}`. -/
structure KBCache where
  articles : List Article
  loaded_at : Option Nat
  enabled : Bool
deriving DecidableEq

/-- `_kb_cache` initial value. -/
def initialKBCache : KBCache := ⟨[], none, true⟩

/-- `_load_kb_cache()`.  The store is `some articles` (grouped rows, ordered by
    article id then chunk index; `_fetchall_dict` plus the grouping loop) or
    `none` when the connection/query raises.  On failure only `enabled` is
    touched; the previous `articles` and `loaded_at` are retained.  On success
    `enabled` is left as it was (the code never resets it to `True`). -/
def loadKBCache (cache : KBCache) (store : Option (List Article)) (now : Nat) :
    Bool × KBCache :=
  match store with
  | some articles => (true, { cache with articles := articles, loaded_at := some now })
  | none => (false, { cache with enabled := false })

/-- `search_kb(query)`: cache path when `_kb_cache['enabled'] and
    _kb_cache['articles']`, otherwise the database fallback, which raises
    (`.error`) when the store is unreachable. -/
def searchKB (cache : KBCache) (store : Option (List Article)) (query : List Char) :
    Except Unit (List SearchResult) :=
  if cache.enabled && !cache.articles.isEmpty then
    .ok (searchKBCache cache.articles query)
  else
    match store with
    | some articles => .ok (searchKBDatabase articles query)
    | none => .error ()

/-! ## Termination when the overlap stays below the midpoint cut -/

/-- Lower bound on the advance of `start` in one iteration (positive whenever
    `overlap < size` and `overlap ≤ size/2 + 1`). -/
def minAdvance (size overlap : Nat) : Nat := min size (size / 2 + 2) - overlap

/-- The text `"aaaaaa\n"` repeated ten times (length 70). -/
def loopText70 : List Char :=
  "aaaaaa\naaaaaa\naaaaaa\naaaaaa\naaaaaa\naaaaaa\naaaaaa\naaaaaa\naaaaaa\naaaaaa\n".data

/-- A 17-character text on which the loop stalls for `size = 10, overlap = 8`. -/
def loopText17 : List Char := "aaaaaa\nbbbbbbbbbb".data

def artShipping : Article := ⟨1, "Shipping".data, "u".data, [⟨"hello".data, 0⟩]⟩

/-! ## C6: "advanced shipping" and the main-keyword pass -/

def artOnlyShipping : Article := ⟨1, "Shipping".data, "us".data, [⟨"s1".data, 0⟩]⟩

def artAdvancedShip : Article :=
  ⟨2, "Advanced Shipping Configuration".data, "ua".data, [⟨"a1".data, 0⟩]⟩

/-! ## C8: refresh failure behaviour -/

def staleCache : KBCache := ⟨[artOnlyShipping], some 0, true⟩

/-! ## C7: the scored content fallback -/

/-- The candidate (article, chunk) pairs of STEP 3, in scan order:
    chunks whose content or article title matches at least one keyword. -/
def candidateRows (words : List (List Char)) (articles : List Article) :
    List (Article × Chunk) :=
  articles.flatMap
    (fun a => (a.chunks.filter (fun c => isCandidate words a c)).map (fun c => (a, c)))

/-- Running best under strict replacement: the first maximum of `x :: l`. -/
def runBest {α : Type} (f : α → Nat) (x : α) (l : List α) : α :=
  l.foldl (fun b y => if f b < f y then y else b) x

/-- The STEP-3 state step, on pre-filtered candidate rows. -/
def scoredStep (words : List (List Char)) (mainKeyword : List Char) :
    (Option SearchResult × Int) → (Article × Chunk) → (Option SearchResult × Int) :=
  fun best r =>
    if best.2 < (chunkScore words mainKeyword r.1 r.2 : Int) then
      (some (mkResult r.1 r.2), (chunkScore words mainKeyword r.1 r.2 : Int))
    else best

/-- Score of a candidate row. -/
def rowScore (words : List (List Char)) (mainKeyword : List Char)
    (r : Article × Chunk) : Nat :=
  chunkScore words mainKeyword r.1 r.2

/-- The keyword list of the query "red fox fox" (the token "fox" repeats). -/
def wordsRFF : List (List Char) := queryWords (pyStrip (pyLower "red fox fox".data))

def artFox : Article := ⟨1, "aaa".data, "uf".data, [⟨"fox aaaaaa".data, 0⟩]⟩

def artRed : Article :=
  ⟨2, "bbb".data, "ur".data,
    [⟨"red bbbbbbbbbbbbbbbbbbbbbbbbbbbbbbbbbbbbbbbbbbbbbbbbbbbb".data, 0⟩]⟩

/-- Modelled from the spec's words for C7: the score computed over *distinct*
    filtered tokens (deduplicated), as the claim states it. -/
def specDistinctScore (words : List (List Char)) (mainKeyword : List Char)
    (a : Article) (c : Chunk) : Nat :=
  titleMatchCount words.dedup (pyLower a.title) * 1000
    + contentMatchCount words.dedup (pyLower c.content) * 100
    + c.content.length
    + (if pyIn mainKeyword (pyLower a.title) then 10000 else 0)

/-! ## C1: cached search vs direct-store fallback -/

def artBasics : Article := ⟨1, "Shipping Basics".data, "u1".data, [⟨"12345".data, 0⟩]⟩

def artAdvanced : Article :=
  ⟨2, "Shipping Advanced".data, "u2".data, [⟨"123456789".data, 0⟩]⟩

example : chunkText 10 "abcdefgh".data 3 1 =
    some ["abc".data, "cde".data, "efg".data, "gh".data] := by decide

example : chunkStarts "abcdefgh".data 3 1 10 0 = some [0, 2, 4, 6] := by decide

example : pySplit "  how to ship  ".data = ["how".data, "to".data, "ship".data] := by
  decide

example : pyStrip "  a b ".data = "a b".data := by decide

example : pyRfind "ab cd".data ' ' 0 5 = some 2 := by decide

/-! ## Facts about `pyRfind` -/

lemma mem_of_getLast? {α : Type} {l : List α} {p : α} (h : l.getLast? = some p) :
    p ∈ l := by
  induction l with
  | nil => simp at h
  | cons a t ih =>
    cases t with
    | nil => simp at h; simp [h]
    | cons b u =>
      rw [List.getLast?_cons_cons] at h
      exact List.mem_cons_of_mem _ (ih h)

lemma le_getLast?_of_pairwise {l : List Nat} {p : Nat}
    (hl : l.Pairwise (· < ·)) (h : l.getLast? = some p) : ∀ q ∈ l, q ≤ p := by
  induction l with
  | nil => simp
  | cons a t ih =>
    intro q hq
    cases t with
    | nil => simp at h hq; omega
    | cons b u =>
      rw [List.getLast?_cons_cons] at h
      rcases List.mem_cons.mp hq with rfl | hq'
      · have hb : ∀ x ∈ b :: u, q < x := fun x hx => (List.pairwise_cons.mp hl).1 x hx
        have := hb p (mem_of_getLast? h)
        omega
      · exact ih (List.pairwise_cons.mp hl).2 h q hq'

lemma getLast?_eq_of_pairwise {l : List Nat} {p : Nat}
    (hl : l.Pairwise (· < ·)) (hm : p ∈ l) (hmax : ∀ q ∈ l, q ≤ p) :
    l.getLast? = some p := by
  induction l with
  | nil => simp at hm
  | cons a t ih =>
    cases t with
    | nil => simp at hm; simp [hm]
    | cons b u =>
      rw [List.getLast?_cons_cons]
      rcases List.mem_cons.mp hm with rfl | hm'
      · have : p < b := (List.pairwise_cons.mp hl).1 b (by simp)
        have : b ≤ p := hmax b (by simp)
        omega
      · exact ih (List.pairwise_cons.mp hl).2 hm'
          (fun q hq => hmax q (List.mem_cons_of_mem _ hq))

lemma pyRfind_pairwise (t : List Char) (c : Char) (s e : Nat) :
    ((List.range (min e t.length)).filter
      (fun i => decide (s ≤ i) && decide (t.get? i = some c))).Pairwise (· < ·) :=
  (List.pairwise_lt_range _).filter _

lemma pyRfind_eq_some_iff {t : List Char} {c : Char} {s e p : Nat} :
    pyRfind t c s e = some p ↔
      s ≤ p ∧ p < e ∧ p < t.length ∧ t.get? p = some c ∧
        ∀ q, p < q → q < e → q < t.length → t.get? q ≠ some c := by
  unfold pyRfind
  constructor
  · intro h
    have hmem := mem_of_getLast? h
    have hmax := le_getLast?_of_pairwise (pyRfind_pairwise t c s e) h
    rw [List.mem_filter, List.mem_range] at hmem
    obtain ⟨hr, hf⟩ := hmem
    simp only [Bool.and_eq_true, decide_eq_true_eq] at hf
    refine ⟨hf.1, by omega, by omega, hf.2, ?_⟩
    intro q hpq hqe hqt hc
    have hqmem : q ∈ (List.range (min e t.length)).filter
        (fun i => decide (s ≤ i) && decide (t.get? i = some c)) := by
      rw [List.mem_filter, List.mem_range]
      refine ⟨by omega, ?_⟩
      rw [Bool.and_eq_true, decide_eq_true_eq, decide_eq_true_eq]
      exact ⟨by omega, hc⟩
    have := hmax q hqmem
    omega
  · rintro ⟨hsp, hpe, hpt, hc, hlast⟩
    apply getLast?_eq_of_pairwise (pyRfind_pairwise t c s e)
    · rw [List.mem_filter, List.mem_range]
      refine ⟨by omega, ?_⟩
      rw [Bool.and_eq_true, decide_eq_true_eq, decide_eq_true_eq]
      exact ⟨hsp, hc⟩
    · intro q hq
      rw [List.mem_filter, List.mem_range] at hq
      obtain ⟨hr, hf⟩ := hq
      simp only [Bool.and_eq_true, decide_eq_true_eq] at hf
      by_contra hgt
      exact hlast q (by omega) (by omega) (by omega) hf.2

lemma pyRfind_none {t : List Char} {c : Char} {s e : Nat}
    (h : pyRfind t c s e = none) :
    ∀ q, s ≤ q → q < e → q < t.length → t.get? q ≠ some c := by
  intro q hsq hqe hqt hc
  have hqmem : q ∈ (List.range (min e t.length)).filter
      (fun i => decide (s ≤ i) && decide (t.get? i = some c)) := by
    rw [List.mem_filter, List.mem_range]
    refine ⟨by omega, ?_⟩
    rw [Bool.and_eq_true, decide_eq_true_eq, decide_eq_true_eq]
    exact ⟨hsq, hc⟩
  unfold pyRfind at h
  rw [List.getLast?_eq_none_iff] at h
  rw [h] at hqmem
  simp at hqmem

/-- If some position in the window carries `c`, `pyRfind` finds a position,
    and it is at least that one. -/
lemma pyRfind_exists_ge {t : List Char} {c : Char} {s e p : Nat}
    (hc : t.get? p = some c) (hsp : s ≤ p) (hpe : p < e) (hpt : p < t.length) :
    ∃ q, pyRfind t c s e = some q ∧ p ≤ q := by
  set l := (List.range (min e t.length)).filter
      (fun i => decide (s ≤ i) && decide (t.get? i = some c)) with hl
  have hpmem : p ∈ l := by
    rw [hl, List.mem_filter, List.mem_range]
    refine ⟨by omega, ?_⟩
    rw [Bool.and_eq_true, decide_eq_true_eq, decide_eq_true_eq]
    exact ⟨hsp, hc⟩
  have hne : l ≠ [] := List.ne_nil_of_mem hpmem
  obtain ⟨q, hq⟩ := Option.ne_none_iff_exists'.mp
    (fun h => hne (List.getLast?_eq_none_iff.mp h))
  exact ⟨q, hq, le_getLast?_of_pairwise (pyRfind_pairwise t c s e) hq p hpmem⟩

/-! ## Bounds on one chunker iteration -/

/-- The iteration's `end` never exceeds `start + size`. -/
lemma chunkEnd_le (text : List Char) (size start : Nat) :
    chunkEnd text size start ≤ start + size := by
  unfold chunkEnd
  dsimp only
  split
  · split
    · split
      · rename_i p hp _
        have := (pyRfind_eq_some_iff.mp hp).2.1
        omega
      · split
        · split
          · rename_i q hq _
            have := (pyRfind_eq_some_iff.mp hq).2.1
            omega
          · omega
        · omega
    · split
      · split
        · rename_i q hq _
          have := (pyRfind_eq_some_iff.mp hq).2.1
          omega
        · omega
      · omega
  · omega

/-- The iteration's `end` is at least `start + min size (size/2 + 2)`. -/
lemma chunkEnd_ge (text : List Char) (size start : Nat) :
    start + min size (size / 2 + 2) ≤ chunkEnd text size start := by
  unfold chunkEnd
  dsimp only
  split
  · split
    · split
      · omega
      · split
        · split
          · omega
          · omega
        · omega
    · split
      · split
        · omega
        · omega
      · omega
  · omega

/-- Case analysis of one iteration: either the raw boundary `start + size` is
    used, or the window was cut at a newline, or at a space (the latter only
    after the newline search failed or fell at or below the midpoint). -/
lemma chunkEnd_spec (text : List Char) (size s : Nat) :
    chunkEnd text size s = s + size ∨
    (∃ p, s + size < text.length ∧ pyRfind text '\n' s (s + size) = some p ∧
      s + size / 2 < p ∧ chunkEnd text size s = p + 1) ∨
    (∃ p, s + size < text.length ∧ pyRfind text ' ' s (s + size) = some p ∧
      s + size / 2 < p ∧ chunkEnd text size s = p + 1 ∧
      (pyRfind text '\n' s (s + size) = none ∨
        ∃ ln, pyRfind text '\n' s (s + size) = some ln ∧ ln ≤ s + size / 2)) := by
  unfold chunkEnd
  dsimp only
  by_cases he0 : s + size < text.length
  · rw [if_pos he0]
    rcases hnl : pyRfind text '\n' s (s + size) with _ | p
    · dsimp only
      rcases hsp : pyRfind text ' ' s (s + size) with _ | q
      · exact Or.inl rfl
      · dsimp only
        by_cases hq : s + size / 2 < q
        · exact Or.inr (Or.inr ⟨q, he0, rfl, hq, if_pos hq, Or.inl rfl⟩)
        · rw [if_neg hq]; exact Or.inl rfl
    · dsimp only
      by_cases hp : s + size / 2 < p
      · exact Or.inr (Or.inl ⟨p, he0, rfl, hp, if_pos hp⟩)
      · rw [if_neg hp]
        rcases hsp : pyRfind text ' ' s (s + size) with _ | q
        · exact Or.inl rfl
        · dsimp only
          by_cases hq : s + size / 2 < q
          · exact Or.inr (Or.inr ⟨q, he0, rfl, hq, if_pos hq,
              Or.inr ⟨p, rfl, by omega⟩⟩)
          · rw [if_neg hq]; exact Or.inl rfl
  · rw [if_neg he0]; exact Or.inl rfl

/-! ## A non-advancing iteration is absorbing

If an iteration fails to move `start` strictly forward, the window only moves
left, so the cut position that caused the stall is found again (or a newline
before it cuts even earlier); `start` never advances and the loop never
terminates. -/

lemma nextStart_absorbing {text : List Char} {size overlap : Nat} (s : Nat)
    (hov : overlap < size) (hs : s < text.length)
    (hdec : nextStart text size overlap s ≤ s) :
    nextStart text size overlap (nextStart text size overlap s) ≤
      nextStart text size overlap s := by
  rcases chunkEnd_spec text size s with hraw | ⟨p, he0, hnl, hthr, hend⟩ |
    ⟨p, he0, hsp, hthr, hend, hnlinfo⟩
  · -- raw boundary: start advances strictly, contradicting the stall
    rw [nextStart, hraw] at hdec
    omega
  · -- newline cut at `p`: the same newline is re-found from the new start
    obtain ⟨hsple, hple, hplen, hpc, hpmax⟩ := pyRfind_eq_some_iff.mp hnl
    rw [nextStart, hend] at hdec
    set s' := nextStart text size overlap s with hsdef
    have hsval : s' = p + 1 - overlap := by rw [hsdef, nextStart, hend]
    obtain ⟨q, hq, hpq⟩ := pyRfind_exists_ge (c := '\n') hpc
      (show s' ≤ p by omega) (show p < s' + size by omega) hplen
    have hqp : q = p := by
      obtain ⟨_, hqe, hqlen, hqc, _⟩ := pyRfind_eq_some_iff.mp hq
      by_contra hne
      exact hpmax q (by omega) (by omega) hqlen hqc
    subst hqp
    have hend' : chunkEnd text size s' = q + 1 := by
      unfold chunkEnd
      dsimp only
      rw [if_pos (show s' + size < text.length by omega), hq]
      dsimp only
      rw [if_pos (show s' + size / 2 < q by omega)]
    rw [nextStart, hend']
    omega
  · -- space cut at `p`
    obtain ⟨hsple, hple, hplen, hpc, hpmax⟩ := pyRfind_eq_some_iff.mp hsp
    rw [nextStart, hend] at hdec
    set s' := nextStart text size overlap s with hsdef
    have hsval : s' = p + 1 - overlap := by rw [hsdef, nextStart, hend]
    rcases hq : pyRfind text '\n' s' (s' + size) with _ | qn
    · -- no newline from `s'`: the space at `p` is re-found
      obtain ⟨q, hqs, hpq⟩ := pyRfind_exists_ge (c := ' ') hpc
        (show s' ≤ p by omega) (show p < s' + size by omega) hplen
      have hqp : q = p := by
        obtain ⟨_, hqe, hqlen, hqc, _⟩ := pyRfind_eq_some_iff.mp hqs
        by_contra hne
        exact hpmax q (by omega) (by omega) hqlen hqc
      subst hqp
      have hend' : chunkEnd text size s' = q + 1 := by
        unfold chunkEnd
        dsimp only
        rw [if_pos (show s' + size < text.length by omega), hq]
        dsimp only
        rw [hqs]
        dsimp only
        rw [if_pos (show s' + size / 2 < q by omega)]
      rw [nextStart, hend']
      omega
    · obtain ⟨hsqn, hqne, hqnlen, hqnc, hqnmax⟩ := pyRfind_eq_some_iff.mp hq
      by_cases hthr' : s' + size / 2 < qn
      · -- a newline cut from `s'`, at a position no later than the midpoint
        -- of the original window (or before the original window)
        have hend' : chunkEnd text size s' = qn + 1 := by
          unfold chunkEnd
          dsimp only
          rw [if_pos (show s' + size < text.length by omega), hq]
          dsimp only
          rw [if_pos hthr']
        have hqnbound : qn + 1 ≤ s' + overlap := by
          by_cases hqges : s ≤ qn
          · rcases hnlinfo with hnone | ⟨ln, hln, hlnle⟩
            · exact absurd hqnc (pyRfind_none hnone qn hqges (by omega) hqnlen)
            · obtain ⟨_, _, _, _, hlnmax⟩ := pyRfind_eq_some_iff.mp hln
              have hqnln : qn ≤ ln := by
                by_contra hgt
                exact hlnmax qn (by omega) (by omega) hqnlen hqnc
              omega
          · omega
        rw [nextStart, hend']
        omega
      · -- newline at or below the midpoint: the space at `p` is re-found
        obtain ⟨q, hqs, hpq⟩ := pyRfind_exists_ge (c := ' ') hpc
          (show s' ≤ p by omega) (show p < s' + size by omega) hplen
        have hqp : q = p := by
          obtain ⟨_, hqe, hqlen, hqc, _⟩ := pyRfind_eq_some_iff.mp hqs
          by_contra hne
          exact hpmax q (by omega) (by omega) hqlen hqc
        subst hqp
        have hend' : chunkEnd text size s' = q + 1 := by
          unfold chunkEnd
          dsimp only
          rw [if_pos (show s' + size < text.length by omega), hq]
          dsimp only
          rw [if_neg hthr', hqs]
          dsimp only
          rw [if_pos (show s' + size / 2 < q by omega)]
        rw [nextStart, hend']
        omega

/-- From a stalling start position the loop never terminates, whatever the
    fuel. -/
lemma chunkStarts_eq_none_of_stall {text : List Char} {size overlap : Nat}
    (hov : overlap < size) :
    ∀ fuel s, s < text.length → nextStart text size overlap s ≤ s →
      chunkStarts text size overlap fuel s = none := by
  intro fuel
  induction fuel with
  | zero =>
    intro s hs _
    unfold chunkStarts
    rw [if_pos hs]
  | succ n ih =>
    intro s hs hdec
    unfold chunkStarts
    rw [if_pos hs,
      ih (nextStart text size overlap s) (by omega)
        (nextStart_absorbing s hov hs hdec)]
    rfl

/-- An exactly-fixed start position makes `chunkTextAux` loop forever. -/
lemma chunkTextAux_none_of_fixpoint {text : List Char} {size overlap s : Nat}
    (hs : s < text.length) (hfix : nextStart text size overlap s = s) :
    ∀ fuel acc, chunkTextAux text size overlap fuel s acc = none := by
  intro fuel
  induction fuel with
  | zero =>
    intro acc
    unfold chunkTextAux
    rw [if_pos hs]
  | succ n ih =>
    intro acc
    unfold chunkTextAux
    rw [if_pos hs]
    dsimp only
    rw [hfix]
    exact ih _

lemma chunkTextAux_terminates {text : List Char} {size overlap : Nat}
    (hov : overlap < size) (hov2 : overlap ≤ size / 2 + 1) :
    ∀ fuel s acc, text.length ≤ s + fuel * minAdvance size overlap →
      ∃ cs, chunkTextAux text size overlap fuel s acc = some cs := by
  intro fuel
  induction fuel with
  | zero =>
    intro s acc h
    refine ⟨acc, ?_⟩
    unfold chunkTextAux
    rw [if_neg (by omega)]
  | succ n ih =>
    intro s acc h
    by_cases hs : s < text.length
    · unfold chunkTextAux
      rw [if_pos hs]
      dsimp only
      apply ih
      have hge := chunkEnd_ge text size s
      rw [Nat.succ_mul] at h
      set A := n * minAdvance size overlap
      unfold minAdvance at h
      unfold nextStart
      omega
    · refine ⟨acc, ?_⟩
      unfold chunkTextAux
      rw [if_neg hs]

/-! ## Claim theorems for the chunker -/

/-- C3 (code bug).  `chunk_text` has no `overlap < size` guard: instead of
    failing fast with a configuration error, on any non-empty text with
    `overlap ≥ size` the loop never advances `start` past `0` and never
    terminates (here at `chunk_text("hello world", 3, 3)`, for every fuel). -/
theorem chunk_text_overlap_ge_size_loops :
    ∀ fuel, chunkText fuel "hello world".data 3 3 = none := by
  intro fuel
  unfold chunkText
  rw [if_neg (by decide)]
  exact chunkTextAux_none_of_fixpoint (by decide) (by decide) fuel []

/-- Counterexample to C4 as stated.  With `size = 10`, `overlap = 0` the loop
    on `loopText70` (length 70) cuts at every newline and needs 10 iterations —
    fuel `70 / (10 - 0) = 7` is not enough, refuting the
    `length / (size - overlap)` bound; and with `size = 10, overlap = 8`
    (still `0 ≤ overlap < size`) the loop on `loopText17` does not even
    terminate (shown at fuel 1000, and for all fuel by the stall argument). -/
theorem chunk_bound_counterexample :
    chunkText (loopText70.length / (10 - 0)) loopText70 10 0 = none ∧
    chunkText 10 loopText70 10 0 ≠ none ∧
    chunkText (loopText17.length / (10 - 8)) loopText17 10 8 = none ∧
    chunkText 1000 loopText17 10 8 = none := by
  refine ⟨by decide, by decide, by decide, ?_⟩
  unfold chunkText
  rw [if_neg (by decide)]
  exact chunkTextAux_none_of_fixpoint (by decide) (by decide) 1000 []

/-- C4 (amended).  For `0 ≤ overlap < size` with `overlap ≤ size/2 + 1`, the
    loop terminates within `length / (min size (size/2 + 2) - overlap) + 1`
    iterations: a midpoint cut can advance `start` by as little as
    `size/2 + 2 - overlap`, so `size - overlap` is not a valid denominator,
    and for `overlap > size/2 + 1` the loop need not terminate at all. -/
theorem chunk_text_terminates_bounded (text : List Char) (size overlap : Nat)
    (hov : overlap < size) (hov2 : overlap ≤ size / 2 + 1) :
    ∃ cs, chunkText (text.length / minAdvance size overlap + 1) text size overlap
      = some cs := by
  unfold chunkText
  by_cases he : text.isEmpty
  · rw [if_pos he]
    exact ⟨[], rfl⟩
  · rw [if_neg he]
    apply chunkTextAux_terminates hov hov2
    have hpos : 0 < minAdvance size overlap := by unfold minAdvance; omega
    have hd := Nat.div_add_mod text.length (minAdvance size overlap)
    have hmod := Nat.mod_lt text.length hpos
    rw [Nat.succ_mul,
      Nat.mul_comm (text.length / minAdvance size overlap) (minAdvance size overlap)]
    set X := minAdvance size overlap * (text.length / minAdvance size overlap)
    omega

/-- Witness for C4 (amended) at `text = "abcdefgh", size = 3, overlap = 1`. -/
theorem chunk_text_terminates_bounded_witness :
    ∃ cs, chunkText ("abcdefgh".data.length / minAdvance 3 1 + 1)
      "abcdefgh".data 3 1 = some cs :=
  chunk_text_terminates_bounded "abcdefgh".data 3 1 (by decide) (by decide)

/-! ## Coverage: the non-overlap spans reconstruct the text -/

lemma pySlice_to_length (t : List Char) (s : Nat) :
    pySlice t s t.length = t.drop s := by
  unfold pySlice
  rw [show t.length - s = (t.drop s).length by rw [List.length_drop]]
  exact List.take_length _

lemma pySlice_glue (t : List Char) {a b : Nat} (hab : a ≤ b) :
    pySlice t a b ++ pySlice t b t.length = pySlice t a t.length := by
  rw [pySlice_to_length, pySlice_to_length]
  unfold pySlice
  rw [show t.drop b = (t.drop a).drop (b - a) by rw [List.drop_drop]; congr 1; omega]
  exact List.take_append_drop _ _

lemma chunkStarts_head {text : List Char} {size overlap fuel s x : Nat}
    {rest : List Nat}
    (h : chunkStarts text size overlap fuel s = some (x :: rest)) : x = s := by
  cases fuel with
  | zero =>
    unfold chunkStarts at h
    by_cases hs : s < text.length
    · rw [if_pos hs] at h
      simp at h
    · rw [if_neg hs] at h
      simp at h
  | succ n =>
    unfold chunkStarts at h
    by_cases hs : s < text.length
    · rw [if_pos hs] at h
      rcases hnext : chunkStarts text size overlap n (nextStart text size overlap s)
        with _ | ss
      · rw [hnext] at h
        simp at h
      · rw [hnext] at h
        simp at h
        omega
    · rw [if_neg hs] at h
      simp at h

lemma spanConcat_of_chunkStarts {text : List Char} {size overlap : Nat}
    (hov : overlap < size) :
    ∀ fuel s ss, chunkStarts text size overlap fuel s = some ss →
      spanConcat text ss = pySlice text s text.length := by
  intro fuel
  induction fuel with
  | zero =>
    intro s ss h
    unfold chunkStarts at h
    by_cases hs : s < text.length
    · rw [if_pos hs] at h
      simp at h
    · rw [if_neg hs] at h
      obtain rfl : ss = [] := by simpa using h.symm
      rw [pySlice_to_length, List.drop_eq_nil_of_le (by omega)]
      rfl
  | succ n ih =>
    intro s ss h
    unfold chunkStarts at h
    by_cases hs : s < text.length
    · rw [if_pos hs] at h
      rcases hnext : chunkStarts text size overlap n (nextStart text size overlap s)
        with _ | ss'
      · rw [hnext] at h
        simp at h
      · rw [hnext] at h
        have hss : ss = s :: ss' := by simpa using h.symm
        subst hss
        have hlt : s < nextStart text size overlap s := by
          by_contra hle
          rw [chunkStarts_eq_none_of_stall hov n (nextStart text size overlap s)
            (by omega) (nextStart_absorbing s hov hs (by omega))] at hnext
          exact absurd hnext (by simp)
        cases ss' with
        | nil => rfl
        | cons y rest =>
          have hy : y = nextStart text size overlap s := chunkStarts_head hnext
          subst hy
          show pySlice text s (nextStart text size overlap s)
              ++ spanConcat text (nextStart text size overlap s :: rest)
            = pySlice text s text.length
          rw [ih _ _ hnext]
          exact pySlice_glue text (by omega)
    · rw [if_neg hs] at h
      obtain rfl : ss = [] := by simpa using h.symm
      rw [pySlice_to_length, List.drop_eq_nil_of_le (by omega)]
      rfl

lemma chunkStarts_isSome_of_chunkTextAux {text : List Char} {size overlap : Nat} :
    ∀ fuel s acc cs, chunkTextAux text size overlap fuel s acc = some cs →
      ∃ ss, chunkStarts text size overlap fuel s = some ss := by
  intro fuel
  induction fuel with
  | zero =>
    intro s acc cs h
    unfold chunkTextAux at h
    unfold chunkStarts
    by_cases hs : s < text.length
    · rw [if_pos hs] at h
      simp at h
    · rw [if_neg hs]
      exact ⟨[], rfl⟩
  | succ n ih =>
    intro s acc cs h
    unfold chunkTextAux at h
    unfold chunkStarts
    by_cases hs : s < text.length
    · rw [if_pos hs] at h
      rw [if_pos hs]
      dsimp only at h
      obtain ⟨ss, hss⟩ := ih _ _ _ h
      exact ⟨s :: ss, by rw [hss]; rfl⟩
    · rw [if_neg hs]
      exact ⟨[], rfl⟩

/-- C5 (confirmed).  For a valid configuration (`0 ≤ overlap < size`) and a
    text longer than `size`, whenever the loop terminates, its start positions
    are strictly increasing (a non-advancing iteration would loop forever by
    `nextStart_absorbing`), and the non-overlap spans — each start's text up
    to the next start, the last up to the end — concatenate to the whole
    text with no gap. -/
theorem chunk_spans_reconstruct (text : List Char) (size overlap fuel : Nat)
    (cs : List (List Char)) (hov : overlap < size) (hlen : size < text.length)
    (hrun : chunkText fuel text size overlap = some cs) :
    ∃ ss, chunkStarts text size overlap fuel 0 = some ss ∧
      spanConcat text ss = text := by
  unfold chunkText at hrun
  rw [if_neg (by
    intro hemp
    rw [List.isEmpty_iff] at hemp
    rw [hemp] at hlen
    simp at hlen)] at hrun
  obtain ⟨ss, hss⟩ := chunkStarts_isSome_of_chunkTextAux fuel 0 [] cs hrun
  refine ⟨ss, hss, ?_⟩
  rw [spanConcat_of_chunkStarts hov fuel 0 ss hss, pySlice_to_length,
    List.drop_zero]

/-- Witness for C5 at `text = "abcdefgh", size = 3, overlap = 1, fuel = 10`. -/
theorem chunk_spans_reconstruct_witness :
    ∃ ss, chunkStarts "abcdefgh".data 3 1 10 0 = some ss ∧
      spanConcat "abcdefgh".data ss = "abcdefgh".data :=
  chunk_spans_reconstruct "abcdefgh".data 3 1 10
    ["abc".data, "cde".data, "efg".data, "gh".data] (by decide) (by decide)
    (by decide)

/-! ## Chunk invariants: trimmed, non-empty, bounded length -/

lemma dropWhile_idem (p : Char → Bool) (l : List Char) :
    (l.dropWhile p).dropWhile p = l.dropWhile p := by
  induction l with
  | nil => rfl
  | cons a t ih =>
    by_cases h : p a
    · rw [List.dropWhile_cons_of_pos h]
      exact ih
    · rw [List.dropWhile_cons_of_neg h, List.dropWhile_cons_of_neg h]

lemma head?_dropWhile_not (p : Char → Bool) (l : List Char) {a : Char}
    (h : (l.dropWhile p).head? = some a) : p a = false := by
  induction l with
  | nil => simp at h
  | cons b t ih =>
    by_cases hb : p b
    · rw [List.dropWhile_cons_of_pos hb] at h
      exact ih h
    · rw [List.dropWhile_cons_of_neg hb] at h
      simp at h
      rw [← h]
      simp [hb]

lemma getLast?_dropWhile (p : Char → Bool) (l : List Char)
    (h : l.dropWhile p ≠ []) : (l.dropWhile p).getLast? = l.getLast? := by
  induction l with
  | nil => simp at h
  | cons b t ih =>
    by_cases hb : p b
    · rw [List.dropWhile_cons_of_pos hb] at h ⊢
      rw [ih h]
      cases t with
      | nil => simp at h
      | cons c u => rw [List.getLast?_cons_cons]
    · rw [List.dropWhile_cons_of_neg hb]

lemma pyStrip_idem (s : List Char) : pyStrip (pyStrip s) = pyStrip s := by
  unfold pyStrip
  set W := s.reverse.dropWhile isPySpace with hW
  set R := W.reverse.dropWhile isPySpace with hR
  have hRrev : R.reverse.dropWhile isPySpace = R.reverse := by
    cases hRr : R.reverse with
    | nil => rfl
    | cons a t =>
      have hRne : R ≠ [] := by
        intro hnil
        rw [hnil] at hRr
        simp at hRr
      have h2 : R.getLast? = some a := by
        rw [← List.head?_reverse, hRr]
        rfl
      have h3 : W.reverse.getLast? = some a := by
        rw [← getLast?_dropWhile isPySpace W.reverse (hR ▸ hRne), ← hR]
        exact h2
      have h4 : W.head? = some a := by
        rw [← List.getLast?_reverse, h3]
      have ha : isPySpace a = false := head?_dropWhile_not isPySpace s.reverse (hW ▸ h4)
      rw [List.dropWhile_cons_of_neg (by simp [ha])]
  rw [hRrev, List.reverse_reverse]
  rw [hR]
  exact dropWhile_idem isPySpace W.reverse

lemma length_dropWhile_le' (p : Char → Bool) (l : List Char) :
    (l.dropWhile p).length ≤ l.length := by
  induction l with
  | nil => simp
  | cons a t ih =>
    by_cases h : p a
    · rw [List.dropWhile_cons_of_pos h]
      simp only [List.length_cons]
      omega
    · rw [List.dropWhile_cons_of_neg h]

lemma pyStrip_length_le (s : List Char) : (pyStrip s).length ≤ s.length := by
  unfold pyStrip
  calc (((s.reverse.dropWhile isPySpace).reverse).dropWhile isPySpace).length
      ≤ ((s.reverse.dropWhile isPySpace).reverse).length :=
        length_dropWhile_le' _ _
    _ = (s.reverse.dropWhile isPySpace).length := List.length_reverse _
    _ ≤ s.reverse.length := length_dropWhile_le' _ _
    _ = s.length := List.length_reverse _

lemma chunkTextAux_invariant {text : List Char} {size overlap : Nat} :
    ∀ fuel s acc cs,
      (∀ c ∈ acc, pyStrip c ≠ [] ∧ c.length ≤ size) →
      chunkTextAux text size overlap fuel s acc = some cs →
      ∀ c ∈ cs, pyStrip c ≠ [] ∧ c.length ≤ size := by
  intro fuel
  induction fuel with
  | zero =>
    intro s acc cs hacc h
    unfold chunkTextAux at h
    by_cases hs : s < text.length
    · rw [if_pos hs] at h
      simp at h
    · rw [if_neg hs] at h
      obtain rfl : acc = cs := by simpa using h
      exact hacc
  | succ n ih =>
    intro s acc cs hacc h
    unfold chunkTextAux at h
    by_cases hs : s < text.length
    · rw [if_pos hs] at h
      dsimp only at h
      set chunk := pyStrip (pySlice text s (chunkEnd text size s)) with hchunk
      refine ih _ _ _ ?_ h
      intro c hc
      by_cases hempty : chunk.isEmpty
      · rw [if_pos hempty] at hc
        exact hacc c hc
      · rw [if_neg hempty] at hc
        rcases List.mem_append.mp hc with hc' | hc'
        · exact hacc c hc'
        · have hcc : c = chunk := by simpa using hc'
          subst hcc
          constructor
          · rw [hchunk, pyStrip_idem]
            intro hnil
            rw [hchunk, hnil] at hempty
            exact hempty rfl
          · have h1 : chunk.length ≤ (pySlice text s (chunkEnd text size s)).length := by
              rw [hchunk]
              exact pyStrip_length_le _
            have h2 : (pySlice text s (chunkEnd text size s)).length
                ≤ chunkEnd text size s - s := by
              unfold pySlice
              rw [List.length_take]
              omega
            have h3 := chunkEnd_le text size s
            omega
    · rw [if_neg hs] at h
      obtain rfl : acc = cs := by simpa using h
      exact hacc

/-- C10 (confirmed).  Whenever `chunk_text` terminates, every returned chunk
    is already trimmed and non-empty (so non-empty after trimming) and no
    longer than `chunk_size` characters. -/
theorem chunk_pieces_trimmed_bounded (text : List Char) (size overlap fuel : Nat)
    (cs : List (List Char)) (hsize : 0 < size)
    (h : chunkText fuel text size overlap = some cs) :
    ∀ c ∈ cs, pyStrip c ≠ [] ∧ c.length ≤ size := by
  unfold chunkText at h
  by_cases he : text.isEmpty
  · rw [if_pos he] at h
    obtain rfl : ([] : List (List Char)) = cs := by simpa using h
    simp
  · rw [if_neg he] at h
    exact chunkTextAux_invariant fuel 0 [] cs (by simp) h

/-- Witness for C10 at `chunk_text("ab c", 3, 1) = ["ab", "c"]`, evaluated at
    the first returned chunk. -/
theorem chunk_pieces_trimmed_bounded_witness :
    pyStrip "ab".data ≠ [] ∧ "ab".data.length ≤ 3 :=
  chunk_pieces_trimmed_bounded "ab c".data 3 1 10 ["ab".data, "c".data]
    (by decide) (by decide) "ab".data (by decide)

example : searchKBCache [artShipping] "shipping".data =
    [⟨1, "Shipping".data, "hello".data, "u".data⟩] := by decide

example : searchKBCache [artShipping] "".data =
    [⟨1, "Shipping".data, "hello".data, "u".data⟩] := by decide

example : searchKBDatabase [artShipping] "shipping".data =
    [⟨1, "Shipping".data, "hello".data, "u".data⟩] := by decide

/-! ## C2: empty / whitespace-only queries -/

lemma pyIn_nil (l : List Char) : pyIn [] l = true := by
  cases l with
  | nil => rfl
  | cons c h => rfl

lemma phrasePass_nil_iff (articles : List Article) :
    phrasePass [] articles = [] ↔ ∀ a ∈ articles, a.chunks = [] := by
  induction articles with
  | nil => simp [phrasePass]
  | cons a rest ih =>
    unfold phrasePass
    simp only [pyIn_nil, if_true]
    cases hch : a.chunks with
    | nil =>
      unfold longestChunk
      simp [ih, hch]
    | cons c cs =>
      unfold longestChunk
      simp [hch]

/-- Counterexample to C2.  On a corpus with one article ("Shipping", one
    chunk), the empty query and the whitespace-only query do NOT return the
    empty result: the normalized query is the empty string, which is a
    substring of every title, so the exact-phrase fallback returns the first
    article that has a chunk. -/
theorem empty_query_counterexample :
    searchKBCache [artShipping] "".data =
      [⟨1, "Shipping".data, "hello".data, "u".data⟩] ∧
    searchKBCache [artShipping] "   ".data =
      [⟨1, "Shipping".data, "hello".data, "u".data⟩] :=
  ⟨by decide, by decide⟩

/-- C2 (amended).  A query that normalizes to the empty string (empty or
    whitespace-only) never raises, and returns the empty result exactly when
    no article has any chunk; otherwise the exact-phrase fallback returns a
    chunk of the first article that has one. -/
theorem whitespace_query_phrase_fallback (articles : List Article)
    (query : List Char) (hq : pyStrip (pyLower query) = []) :
    (searchKBCache articles query = [] ↔ ∀ a ∈ articles, a.chunks = []) := by
  unfold searchKBCache
  dsimp only
  rw [hq]
  rw [if_pos (by decide)]
  exact phrasePass_nil_iff articles

/-- Witness for C2 (amended) at the whitespace query `"   "`. -/
theorem whitespace_query_phrase_fallback_witness :
    (searchKBCache [artShipping] "   ".data = [] ↔
      ∀ a ∈ [artShipping], a.chunks = []) :=
  whitespace_query_phrase_fallback [artShipping] "   ".data (by decide)

/-- Counterexample to C6.  With "Shipping" first in snapshot order, the query
    "advanced shipping" is answered by the main-keyword pass (main keyword
    "shipping"), which runs before the all-keywords AND pass and selects
    "Shipping", not "Advanced Shipping Configuration". -/
theorem and_precedence_counterexample :
    searchKBCache [artOnlyShipping, artAdvancedShip] "advanced shipping".data =
      [⟨1, "Shipping".data, "s1".data, "us".data⟩] := by decide

/-- C6 (amended).  When "Advanced Shipping Configuration" precedes "Shipping"
    in snapshot order, the query "advanced shipping" selects it (via the
    main-keyword pass — its title also contains "shipping"), whatever its
    chunks (at least one) and ids/urls are. -/
theorem advanced_first_selects_advanced (i1 i2 : Nat) (u1 u2 : List Char)
    (cs1 cs2 : List Chunk) (h1 : cs1 ≠ []) :
    (searchKBCache
      [⟨i1, "Advanced Shipping Configuration".data, u1, cs1⟩,
       ⟨i2, "Shipping".data, u2, cs2⟩] "advanced shipping".data).map
        (fun r => (r.article_id, r.title)) =
      [(i1, "Advanced Shipping Configuration".data)] := by
  obtain ⟨c, cs, rfl⟩ := List.exists_cons_of_ne_nil h1
  rfl

/-- Witness for C6 (amended). -/
theorem advanced_first_selects_advanced_witness :
    (searchKBCache
      [⟨2, "Advanced Shipping Configuration".data, "ua".data, [⟨"a1".data, 0⟩]⟩,
       ⟨1, "Shipping".data, "us".data, [⟨"s1".data, 0⟩]⟩] "advanced shipping".data).map
        (fun r => (r.article_id, r.title)) =
      [(2, "Advanced Shipping Configuration".data)] :=
  advanced_first_selects_advanced 2 1 "ua".data "us".data
    [⟨"a1".data, 0⟩] [⟨"s1".data, 0⟩] (by decide)

/-- Counterexample to C8.  After a failed refresh the previous articles ARE
    retained and `enabled` IS false and the failure IS reported — but a
    subsequent search is NOT served from the retained snapshot: `search_kb`
    only uses the cache when `enabled`, so it goes to the database fallback,
    which raises while the store is unreachable, even though the retained
    snapshot would have answered the query. -/
theorem refresh_failure_counterexample :
    (loadKBCache staleCache none 1).1 = false ∧
    (loadKBCache staleCache none 1).2.articles = [artOnlyShipping] ∧
    searchKB (loadKBCache staleCache none 1).2 none "shipping".data = .error () ∧
    searchKBCache [artOnlyShipping] "shipping".data ≠ [] :=
  ⟨rfl, rfl, rfl, by decide⟩

/-- C8 (amended).  When the store is unreachable during a refresh, the cache
    is marked disabled, the previous snapshot's articles and `loaded_at` are
    retained unchanged, and the failure is reported to the caller (`false`,
    not a crash); but subsequent searches are routed to the direct-store
    fallback path (not the retained snapshot): they succeed against a (now
    reachable) store and raise while it stays unreachable. -/
theorem refresh_failure_behavior (cache : KBCache) (now : Nat) :
    loadKBCache cache none now = (false, { cache with enabled := false }) ∧
    ∀ store query, searchKB { cache with enabled := false } store query =
      match store with
      | some articles => .ok (searchKBDatabase articles query)
      | none => .error () := by
  refine ⟨rfl, ?_⟩
  intro store query
  cases store <;> simp [searchKB]

lemma runBest_cons {α : Type} (f : α → Nat) (x y : α) (t : List α) :
    runBest f x (y :: t) = runBest f (if f x < f y then y else x) t := by
  unfold runBest
  rw [List.foldl_cons]

lemma runBest_mem {α : Type} (f : α → Nat) :
    ∀ (l : List α) (x : α), runBest f x l ∈ x :: l := by
  intro l
  induction l with
  | nil => intro x; simp [runBest]
  | cons y t ih =>
    intro x
    rw [runBest_cons]
    by_cases h : f x < f y
    · rw [if_pos h]
      rcases List.mem_cons.mp (ih y) with h' | h'
      · rw [h']; simp
      · simp [h']
    · rw [if_neg h]
      rcases List.mem_cons.mp (ih x) with h' | h'
      · rw [h']; simp
      · simp [h']

lemma runBest_max {α : Type} (f : α → Nat) :
    ∀ (l : List α) (x y : α), y ∈ x :: l → f y ≤ f (runBest f x l) := by
  intro l
  induction l with
  | nil =>
    intro x y hy
    simp at hy
    simp [runBest, hy]
  | cons z t ih =>
    intro x y hy
    rw [runBest_cons]
    by_cases h : f x < f z
    · rw [if_pos h]
      have hzle : f z ≤ f (runBest f z t) := ih z z (by simp)
      rcases List.mem_cons.mp hy with rfl | hy'
      · omega
      · rcases List.mem_cons.mp hy' with rfl | hy''
        · exact hzle
        · exact ih z y (by simp [hy''])
    · rw [if_neg h]
      have hxle : f x ≤ f (runBest f x t) := ih x x (by simp)
      rcases List.mem_cons.mp hy with rfl | hy'
      · exact hxle
      · rcases List.mem_cons.mp hy' with rfl | hy''
        · omega
        · exact ih x y (by simp [hy''])

lemma runBest_first {α : Type} (f : α → Nat) :
    ∀ (l : List α) (x : α), ∃ pre post,
      x :: l = pre ++ runBest f x l :: post ∧
      ∀ q ∈ pre, f q < f (runBest f x l) := by
  intro l
  induction l with
  | nil =>
    intro x
    exact ⟨[], [], by simp [runBest], by simp⟩
  | cons z t ih =>
    intro x
    rw [runBest_cons]
    by_cases h : f x < f z
    · rw [if_pos h]
      obtain ⟨pre', post', heq, hpre⟩ := ih z
      refine ⟨x :: pre', post', ?_, ?_⟩
      · rw [List.cons_append, ← heq]
      · intro q hq
        have hzle : f z ≤ f (runBest f z t) := runBest_max f t z z (by simp)
        rcases List.mem_cons.mp hq with rfl | hq'
        · omega
        · exact hpre q hq'
    · rw [if_neg h]
      obtain ⟨pre', post', heq, hpre⟩ := ih x
      cases pre' with
      | nil =>
        simp only [List.nil_append] at heq
        injection heq with h1 h2
        refine ⟨[], z :: t, ?_, by simp⟩
        rw [← h1]
        simp
      | cons w pre'' =>
        rw [List.cons_append] at heq
        injection heq with h1 h2
        subst h1
        refine ⟨x :: z :: pre'', post', ?_, ?_⟩
        · rw [List.cons_append, List.cons_append, ← h2]
        · intro q hq
          have hxlt : f x < f (runBest f x t) := hpre x (by simp)
          rcases List.mem_cons.mp hq with rfl | hq'
          · exact hxlt
          · rcases List.mem_cons.mp hq' with rfl | hq''
            · omega
            · exact hpre q (by simp [hq''])

lemma scoredFold_chunks_eq (words : List (List Char)) (mainKeyword : List Char) (a : Article) :
    ∀ (l : List Chunk) (b : Option SearchResult × Int),
      l.foldl (fun best c =>
        if isCandidate words a c then
          if best.2 < (chunkScore words mainKeyword a c : Int) then
            (some (mkResult a c), (chunkScore words mainKeyword a c : Int))
          else best
        else best) b
        = ((l.filter (fun c => isCandidate words a c)).map (fun c => (a, c))).foldl
            (scoredStep words mainKeyword) b := by
  intro l
  induction l with
  | nil => intro b; rfl
  | cons c t ih =>
    intro b
    rw [List.foldl_cons]
    by_cases h : isCandidate words a c
    · rw [if_pos h, List.filter_cons_of_pos h, List.map_cons, List.foldl_cons]
      exact ih _
    · rw [if_neg h, List.filter_cons_of_neg h]
      exact ih _

lemma scoredFold_eq_foldl (words : List (List Char)) (mainKeyword : List Char) :
    ∀ (articles : List Article) (b : Option SearchResult × Int),
      articles.foldl (fun best a =>
        a.chunks.foldl (fun best c =>
          if isCandidate words a c then
            if best.2 < (chunkScore words mainKeyword a c : Int) then
              (some (mkResult a c), (chunkScore words mainKeyword a c : Int))
            else best
          else best) best) b
        = (candidateRows words articles).foldl (scoredStep words mainKeyword) b := by
  intro articles
  induction articles with
  | nil => intro b; rfl
  | cons a rest ih =>
    intro b
    rw [List.foldl_cons, ih]
    unfold candidateRows
    rw [List.flatMap_cons, List.foldl_append, scoredFold_chunks_eq]

lemma scoredStep_eq (words : List (List Char)) (mainKeyword : List Char)
    (b : Option SearchResult × Int) (r : Article × Chunk) :
    scoredStep words mainKeyword b r =
      if b.2 < (rowScore words mainKeyword r : Int) then
        (some (mkResult r.1 r.2), (rowScore words mainKeyword r : Int))
      else b := rfl

lemma scoredStep_run (words : List (List Char)) (mainKeyword : List Char) :
    ∀ (l : List (Article × Chunk)) (x : Article × Chunk),
      l.foldl (scoredStep words mainKeyword)
        (some (mkResult x.1 x.2), (rowScore words mainKeyword x : Int))
        = (some (mkResult (runBest (rowScore words mainKeyword) x l).1
              (runBest (rowScore words mainKeyword) x l).2),
           (rowScore words mainKeyword (runBest (rowScore words mainKeyword) x l) : Int)) := by
  intro l
  induction l with
  | nil => intro x; rfl
  | cons y t ih =>
    intro x
    rw [List.foldl_cons, runBest_cons, scoredStep_eq]
    dsimp only
    by_cases h : rowScore words mainKeyword x < rowScore words mainKeyword y
    · rw [if_pos (by exact_mod_cast h), if_pos h]
      exact ih y
    · rw [if_neg (by exact_mod_cast h), if_neg h]
      exact ih x

lemma scoredFold_eq_runBest (words : List (List Char)) (mainKeyword : List Char)
    (articles : List Article) :
    scoredFold words mainKeyword articles
      = match candidateRows words articles with
        | [] => (none, -1)
        | x :: l =>
          (some (mkResult (runBest (rowScore words mainKeyword) x l).1
              (runBest (rowScore words mainKeyword) x l).2),
           (rowScore words mainKeyword (runBest (rowScore words mainKeyword) x l) : Int)) := by
  unfold scoredFold
  rw [scoredFold_eq_foldl]
  cases hc : candidateRows words articles with
  | nil => rfl
  | cons x l =>
    rw [List.foldl_cons, scoredStep_eq]
    dsimp only
    rw [if_pos (by
      have := Int.natCast_nonneg (rowScore words mainKeyword x)
      omega)]
    exact scoredStep_run words mainKeyword l x

/-- C7 (amended).  The scored content fallback returns a result exactly when
    some chunk matches a keyword (by content or title), and the returned
    result is built from the first candidate attaining the maximal score,
    where the score counts keyword occurrences in the filtered token list
    *with multiplicity* (the code iterates over `words`, which can repeat a
    token), not distinct tokens: `1000·(tokens found in title) +
    100·(tokens found in content) + len(content) + 10000` if the title
    contains the main keyword.  In particular two chunks of the same article
    with equal scores resolve to the earlier (lower `chunk_index`). -/
theorem scored_fallback_first_max (words : List (List Char)) (mainKeyword : List Char)
    (articles : List Article) :
    (scoredContentPass words mainKeyword articles = [] ↔
      candidateRows words articles = []) ∧
    ∀ r, scoredContentPass words mainKeyword articles = [r] →
      ∃ pre p post, candidateRows words articles = pre ++ p :: post ∧
        r = mkResult p.1 p.2 ∧
        (∀ q ∈ candidateRows words articles,
          chunkScore words mainKeyword q.1 q.2 ≤ chunkScore words mainKeyword p.1 p.2) ∧
        ∀ q ∈ pre, chunkScore words mainKeyword q.1 q.2
          < chunkScore words mainKeyword p.1 p.2 := by
  have hfold := scoredFold_eq_runBest words mainKeyword articles
  unfold scoredContentPass
  rw [hfold]
  cases hc : candidateRows words articles with
  | nil => exact ⟨by simp, by simp⟩
  | cons x l =>
    constructor
    · simp
    · intro r hr
      simp only [Option.some.injEq, List.cons.injEq] at hr
      set best := runBest (rowScore words mainKeyword) x l with hbest
      obtain ⟨pre, post, heq, hpre⟩ := runBest_first (rowScore words mainKeyword) l x
      refine ⟨pre, best, post, heq, hr.1.symm, ?_, ?_⟩
      · intro q hq
        exact runBest_max (rowScore words mainKeyword) l x q hq
      · intro q hq
        exact hpre q hq

/-- Counterexample to C7 as stated.  On the query "red fox fox" (filtered
    token list ["red", "fox", "fox"]), the code counts the duplicated token
    twice: it returns the "fox" chunk of `artFox`, although the "red" chunk
    of `artRed` is also a candidate and has a strictly higher score when
    distinct tokens are counted, as the claim demands. -/
theorem scored_distinct_counterexample :
    searchKBCache [artFox, artRed] "red fox fox".data =
      [⟨1, "aaa".data, "fox aaaaaa".data, "uf".data⟩] ∧
    isCandidate wordsRFF artRed
      ⟨"red bbbbbbbbbbbbbbbbbbbbbbbbbbbbbbbbbbbbbbbbbbbbbbbbbbbb".data, 0⟩ = true ∧
    specDistinctScore wordsRFF (wordsRFF.getLastD []) artFox ⟨"fox aaaaaa".data, 0⟩
      < specDistinctScore wordsRFF (wordsRFF.getLastD []) artRed
          ⟨"red bbbbbbbbbbbbbbbbbbbbbbbbbbbbbbbbbbbbbbbbbbbbbbbbbbbb".data, 0⟩ :=
  ⟨by decide, by decide, by decide⟩

/-- Witness for C7 (amended), at the corpus and query of the counterexample. -/
theorem scored_fallback_first_max_witness :
    ∃ pre p post, candidateRows wordsRFF [artFox, artRed] = pre ++ p :: post ∧
      (⟨1, "aaa".data, "fox aaaaaa".data, "uf".data⟩ : SearchResult)
        = mkResult p.1 p.2 ∧
      (∀ q ∈ candidateRows wordsRFF [artFox, artRed],
        chunkScore wordsRFF (wordsRFF.getLastD []) q.1 q.2
          ≤ chunkScore wordsRFF (wordsRFF.getLastD []) p.1 p.2) ∧
      ∀ q ∈ pre, chunkScore wordsRFF (wordsRFF.getLastD []) q.1 q.2
        < chunkScore wordsRFF (wordsRFF.getLastD []) p.1 p.2 :=
  (scored_fallback_first_max wordsRFF (wordsRFF.getLastD []) [artFox, artRed]).2
    ⟨1, "aaa".data, "fox aaaaaa".data, "uf".data⟩ (by decide)

/-- Counterexample to C1.  Same corpus, same query "shipping": the cached
    path picks the FIRST article whose title contains the main keyword and
    returns its longest chunk, while the SQL fallback orders all matching
    rows by `LEN(content) DESC` and returns the longest matching chunk
    corpus-wide — a different article. -/
theorem cache_db_divergence_counterexample :
    searchKBCache [artBasics, artAdvanced] "shipping".data =
      [⟨1, "Shipping Basics".data, "12345".data, "u1".data⟩] ∧
    searchKBDatabase [artBasics, artAdvanced] "shipping".data =
      [⟨2, "Shipping Advanced".data, "123456789".data, "u2".data⟩] :=
  ⟨by decide, by decide⟩

lemma count_pos_of_mem {p : List Char → Bool} {w : List Char}
    {words : List (List Char)} (hw : w ∈ words) (hp : p w = true) :
    0 < (words.filter p).length :=
  List.length_pos.mpr (List.ne_nil_of_mem (List.mem_filter.mpr ⟨hw, hp⟩))

/-- The STEP-3 candidate test of the cached path coincides with the row
    predicate of the fallback's STEP-3 `WHERE` clause. -/
lemma isCandidate_eq_any (words : List (List Char)) (a : Article) (c : Chunk) :
    isCandidate words a c
      = words.any (fun w => pyIn w (pyLower c.content) || pyIn w (pyLower a.title)) := by
  by_cases h : words.any (fun w => pyIn w (pyLower c.content) || pyIn w (pyLower a.title))
  · rw [h]
    rw [List.any_eq_true] at h
    obtain ⟨w, hw, hww⟩ := h
    rw [Bool.or_eq_true] at hww
    unfold isCandidate
    rcases hww with h1 | h1
    · have := count_pos_of_mem (p := fun w => pyIn w (pyLower c.content)) hw h1
      unfold contentMatchCount
      simp [this]
    · have := count_pos_of_mem (p := fun w => pyIn w (pyLower a.title)) hw h1
      unfold titleMatchCount
      simp [this]
  · rw [Bool.not_eq_true] at h
    rw [h]
    rw [List.any_eq_false] at h
    unfold isCandidate contentMatchCount titleMatchCount
    have hc : (words.filter (fun w => pyIn w (pyLower c.content))) = [] := by
      rw [List.filter_eq_nil_iff]
      intro w hw
      have := h w hw
      simp only [Bool.or_eq_true, not_or] at this
      simp [this.1]
    have ht : (words.filter (fun w => pyIn w (pyLower a.title))) = [] := by
      rw [List.filter_eq_nil_iff]
      intro w hw
      have := h w hw
      simp only [Bool.or_eq_true, not_or] at this
      simp [this.2]
    rw [hc, ht]
    rfl

lemma neg_one_lt_natCast (n : Nat) : (-1 : Int) < (n : Int) := by omega

/-- C1 (amended).  The cached path and the direct-store fallback agree on
    every query when the corpus has at most one article holding at most one
    chunk; in general they diverge (see the counterexample). -/
theorem cache_db_agree_small (articles : List Article) (query : List Char)
    (hart : articles.length ≤ 1) (hch : ∀ a ∈ articles, a.chunks.length ≤ 1) :
    searchKBCache articles query = searchKBDatabase articles query := by
  cases articles with
  | nil =>
    by_cases hw : (queryWords (pyStrip (pyLower query))).isEmpty
    · simp [searchKBCache, searchKBDatabase, dbRows, phrasePass, hw]
    · simp [searchKBCache, searchKBDatabase, dbRows, phrasePass, mainKeywordPass,
        allKeywordsPass, scoredContentPass, scoredFold, topByLen, topByCaseLen, hw]
  | cons a rest =>
    cases rest with
    | cons b r2 => simp at hart
    | nil =>
      obtain ⟨aid, atitle, aurl, achunks⟩ := a
      have hlen := hch ⟨aid, atitle, aurl, achunks⟩ (by simp)
      simp only at hlen
      cases achunks with
      | nil =>
        by_cases hw : (queryWords (pyStrip (pyLower query))).isEmpty
        · simp [searchKBCache, searchKBDatabase, dbRows, phrasePass, longestChunk, hw]
        · simp [searchKBCache, searchKBDatabase, dbRows, phrasePass, mainKeywordPass,
            allKeywordsPass, scoredContentPass, scoredFold, topByLen, topByCaseLen,
            longestChunk, hw]
      | cons c crest =>
        cases crest with
        | cons c2 r3 => simp at hlen
        | nil =>
          by_cases hw : (queryWords (pyStrip (pyLower query))).isEmpty
          · by_cases ht : pyIn (pyStrip (pyLower query)) (pyLower atitle)
            · simp [searchKBCache, searchKBDatabase, dbRows, phrasePass,
                longestChunk, runBest, mkResult, hw, ht]
            · simp [searchKBCache, searchKBDatabase, dbRows, phrasePass, hw, ht]
          · by_cases h1 : pyIn ((queryWords (pyStrip (pyLower query))).getLast?.getD [])
                (pyLower atitle)
            · simp [searchKBCache, searchKBDatabase, dbRows, mainKeywordPass,
                longestChunk, topByLen, runBest, mkResult, hw, h1]
            · by_cases h2g : 1 < (queryWords (pyStrip (pyLower query))).length
              · by_cases h2 : (queryWords (pyStrip (pyLower query))).all
                    (fun w => pyIn w (pyLower atitle))
                · simp [searchKBCache, searchKBDatabase, dbRows, mainKeywordPass,
                    allKeywordsPass, longestChunk, topByLen, runBest, mkResult,
                    hw, h1, h2g, h2]
                · by_cases h3 : isCandidate (queryWords (pyStrip (pyLower query)))
                      ⟨aid, atitle, aurl, [c]⟩ c
                  · simp [searchKBCache, searchKBDatabase, dbRows, mainKeywordPass,
                      allKeywordsPass, scoredContentPass, scoredFold, topByLen,
                      topByCaseLen, longestChunk, mkResult, hw, h1, h2g, h2, h3,
                      neg_one_lt_natCast, ← isCandidate_eq_any]
                  · simp [searchKBCache, searchKBDatabase, dbRows, mainKeywordPass,
                      allKeywordsPass, scoredContentPass, scoredFold, topByLen,
                      topByCaseLen, longestChunk, mkResult, hw, h1, h2g, h2, h3,
                      ← isCandidate_eq_any]
              · by_cases h3 : isCandidate (queryWords (pyStrip (pyLower query)))
                    ⟨aid, atitle, aurl, [c]⟩ c
                · simp [searchKBCache, searchKBDatabase, dbRows, mainKeywordPass,
                    allKeywordsPass, scoredContentPass, scoredFold, topByLen,
                    topByCaseLen, longestChunk, mkResult, hw, h1, h2g, h3,
                    neg_one_lt_natCast, ← isCandidate_eq_any]
                · simp [searchKBCache, searchKBDatabase, dbRows, mainKeywordPass,
                    allKeywordsPass, scoredContentPass, scoredFold, topByLen,
                    topByCaseLen, longestChunk, mkResult, hw, h1, h2g, h3,
                    ← isCandidate_eq_any]

/-- Witness for C1 (amended) at a one-article, one-chunk corpus. -/
theorem cache_db_agree_small_witness :
    searchKBCache [artShipping] "shipping".data
      = searchKBDatabase [artShipping] "shipping".data :=
  cache_db_agree_small [artShipping] "shipping".data (by decide) (by decide)

end ChatBotKB
